import Mathlib

/-!
Verification development for the voxel-grid backprojection engine of
`cryodrgn/commands/backproject_voxel.py`.

The embedding models torch float tensors by exact arithmetic: sample data
(coordinates, Hartley-transform values `ff`, and the per-pixel CTF factors)
are rationals (every floating-point value is rational), while grid cells are
real-valued because the splat weight involves a Euclidean square root.
A 3D grid is a total function on integer index triples; the (D, D, D) tensors
of `main` correspond to the restriction to indices in `[0, D)`.
-/

namespace Backproject

/-- A real-valued sample coordinate `(x, y, z)` in voxel units. -/
abbrev Coord : Type := ℚ × ℚ × ℚ

/-- An integer grid corner `(xi, yi, zi)`. -/
abbrev Corner : Type := ℤ × ℤ × ℤ

/-- A 3D accumulation grid, indexed by integer triples (z, y, x order for
voxel indices, matching `volume[(zi + d2, yi + d2, xi + d2)]`). -/
abbrev Grid : Type := ℤ × ℤ × ℤ → ℝ

/-- The `(volume, counts)` pair of co-indexed accumulation grids. -/
abbrev GridPair : Type := Grid × Grid

/-- `x.clip(-d2, d2)` for one tensor entry: clamp into `[-d2, d2]`. -/
def ratClip (d2 : ℤ) (q : ℚ) : ℚ := max (-(d2 : ℚ)) (min (d2 : ℚ) q)

/-- `ff_coord.clip(-d2, d2)` applied componentwise to one sample coordinate
(line 140 of `backproject_voxel.py`). -/
def clipCoord (d2 : ℤ) (c : Coord) : Coord :=
  (ratClip d2 c.1, ratClip d2 c.2.1, ratClip d2 c.2.2)

/-- The splat weight of one corner for one sample:
`dist = stack([xi, yi, zi]).float() - ff_coord`,
`w = 1 - dist.pow(2).sum(0).pow(0.5)`, then `w[w < 0] = 0`
(lines 145-147 of `backproject_voxel.py`). -/
noncomputable def splatWeight (corner : Corner) (c : Coord) : ℝ :=
  let w : ℝ := 1 - Real.sqrt (((corner.1 : ℝ) - (c.1 : ℝ)) ^ 2 +
    ((corner.2.1 : ℝ) - (c.2.1 : ℝ)) ^ 2 + ((corner.2.2 : ℝ) - (c.2.2 : ℝ)) ^ 2)
  if w < 0 then 0 else w

/-- The voxel index written by `add_for_corner`:
`(zi + d2, yi + d2, xi + d2)` (lines 148-149). -/
def cornerIdx (d2 : ℤ) (corner : Corner) : ℤ × ℤ × ℤ :=
  (corner.2.2 + d2, corner.2.1 + d2, corner.1 + d2)

/-- In-place accumulation `G[p] += v` on one cell of a grid. -/
def gridAdd (G : Grid) (p : ℤ × ℤ × ℤ) (v : ℝ) : Grid :=
  fun q => if q = p then G q + v else G q

/-- `add_for_corner(xi, yi, zi)` for a single sample: accumulate
`volume[idx] += w * ff * ctf_mul` and `counts[idx] += w * ctf_mul ** 2`
(lines 144-149 of `backproject_voxel.py`). `c` is the already clipped
coordinate. -/
noncomputable def add_for_corner (d2 : ℤ) (c : Coord) (ff ctf_mul : ℚ) (corner : Corner)
    (P : GridPair) : GridPair :=
  let w := splatWeight corner c
  (gridAdd P.1 (cornerIdx d2 corner) (w * (ff : ℝ) * (ctf_mul : ℝ)),
    gridAdd P.2 (cornerIdx d2 corner) (w * (ctf_mul : ℝ) ^ 2))

/-- The eight floor/ceil corner combinations, in the order of the eight
`add_for_corner` calls (lines 151-158 of `backproject_voxel.py`). -/
def cornersOf (c : Coord) : List Corner :=
  let xf := ⌊c.1⌋; let yf := ⌊c.2.1⌋; let zf := ⌊c.2.2⌋
  let xc := ⌈c.1⌉; let yc := ⌈c.2.1⌉; let zc := ⌈c.2.2⌉
  [(xf, yf, zf), (xc, yf, zf), (xf, yc, zf), (xf, yf, zc),
    (xc, yc, zf), (xf, yc, zc), (xc, yf, zc), (xc, yc, zc)]

/-- One sample of an image slice: a 3D frequency coordinate (post-rotation),
its Hartley-transform value and its CTF multiplier. -/
structure Sample where
  coord : Coord
  ff : ℚ
  ctfMul : ℚ
deriving DecidableEq

/-- An image slice: the flat list of its masked samples. -/
abbrev Slice : Type := List Sample

/-- `add_slice` restricted to one sample: clip its coordinate and run the
eight `add_for_corner` calls (lines 138-158 of `backproject_voxel.py`;
`d2 = int(D / 2)`). -/
noncomputable def add_slice_sample (D : ℕ) (s : Sample) (P : GridPair) : GridPair :=
  let d2 : ℤ := (D / 2 : ℕ)
  let c := clipCoord d2 s.coord
  (cornersOf c).foldl (fun P corner => add_for_corner d2 c s.ff s.ctfMul corner P) P

/-- `add_slice(volume, counts, ff_coord, ff, D, ctf_mul)`: splat every sample
of one image slice into the `(volume, counts)` pair. -/
noncomputable def add_slice (D : ℕ) (s : Slice) (P : GridPair) : GridPair :=
  s.foldl (fun P smp => add_slice_sample D smp P) P

/-- Insert a batch of image slices, in order. -/
noncomputable def insertSlices (D : ℕ) (l : List Slice) (P : GridPair) : GridPair :=
  l.foldl (fun P s => add_slice D s P) P

/-- The all-zero `(volume, counts)` pair (`torch.zeros((D, D, D))`). -/
def zeroPair : GridPair := (fun _ => 0, fun _ => 0)

/-- The list of voxel index triples written by `add_slice` for one raw sample
coordinate: the eight `add_for_corner` target indices of the clipped
coordinate. -/
def addSliceIndices (D : ℕ) (c : Coord) : List (ℤ × ℤ × ℤ) :=
  let d2 : ℤ := (D / 2 : ℕ)
  (cornersOf (clipCoord d2 c)).map (cornerIdx d2)

/-! ### The volume regularizer (`regularize_volume`, lines 161-168)

`regularize_volume` only uses elementwise ops, `.mean()`, slicing off the last
index of each axis, and `fft.ihtn_center`. It is stated over any linearly
ordered field so that witnesses can run it on `ℚ` while the accumulation
claims connect to it over `ℝ`. -/

/-- A finite cubic `(D, D, D)` tensor. -/
abbrev FGrid (D : ℕ) (K : Type) : Type := Fin D → Fin D → Fin D → K

/-- `t.mean()` of a `(D, D, D)` tensor: sum of all entries over `D ^ 3`. -/
def gmean {D : ℕ} {K : Type} [Field K] (G : FGrid D K) : K :=
  (∑ x : Fin D, ∑ y : Fin D, ∑ z : Fin D, G x y z) / ((D : K) ^ 3)

/-- `regularized_counts = counts + reg_weight * counts.mean()` (line 164). -/
def regularizedCounts {D : ℕ} {K : Type} [Field K] (C : FGrid D K) (rw : K) :
    FGrid D K :=
  fun x y z => C x y z + rw * gmean C

/-- `regularized_counts *= counts.mean() / regularized_counts.mean()`
(line 165). -/
def rescaledCounts {D : ℕ} {K : Type} [Field K] (C : FGrid D K) (rw : K) :
    FGrid D K :=
  fun x y z =>
    regularizedCounts C rw x y z * (gmean C / gmean (regularizedCounts C rw))

/-- `reg_volume = volume / regularized_counts` (line 166). -/
def regVolumeQuotient {D : ℕ} {K : Type} [Field K] (V C : FGrid D K) (rw : K) :
    FGrid D K :=
  fun x y z => V x y z / rescaledCounts C rw x y z

/-- `reg_volume[0:-1, 0:-1, 0:-1]`: drop the last index along each axis,
trimming the `D`-cube to `D - 1` (line 168). -/
def trimGrid {D : ℕ} {K : Type} (G : FGrid D K) : FGrid (D - 1) K :=
  fun x y z => G (Fin.castLE (Nat.sub_le D 1) x) (Fin.castLE (Nat.sub_le D 1) y)
    (Fin.castLE (Nat.sub_le D 1) z)

/-- `regularize_volume(volume, counts, reg_weight)` (lines 161-168).

The final step `fft.ihtn_center` (the inverse origin-centered Hartley
transform) lives in `cryodrgn/fft.py`, which is not part of the sources here;
following the spec, which deliberately leaves the exact transform convention
open (§9), it is taken as an explicit function argument `ihtn_center`. -/
def regularize_volume {D : ℕ} {K : Type} [Field K]
    (ihtn_center : FGrid (D - 1) K → FGrid (D - 1) K)
    (volume counts : FGrid D K) (reg_weight : K) : FGrid (D - 1) K :=
  ihtn_center (trimGrid (regVolumeQuotient volume counts reg_weight))

/-- `counts[counts == 0] = 1`: floor exactly-zero weight entries to one
(lines 309-311 of `backproject_voxel.py`). -/
def floorCounts {D : ℕ} {K : Type} [Field K] [DecidableEq K]
    (C : FGrid D K) : FGrid D K :=
  fun x y z => if C x y z = 0 then 1 else C x y z

/-! ### The orchestrator's accumulation loop (`main`, lines 261-301)

Each processed image is a pair of its dataset index `ii` and its slice data.
The loop inserts each slice into the full stream always and, when half-maps
are requested, into half-1 when `ii % 2 == 0` and into half-2 otherwise. -/

/-- One step of the orchestrator loop over the triple of streams
(lines 294-301 of `backproject_voxel.py`). -/
noncomputable def orchestratorStep (halfMaps : Bool) (D : ℕ)
    (img : ℤ × Slice) (S : GridPair × GridPair × GridPair) :
    GridPair × GridPair × GridPair :=
  let full := add_slice D img.2 S.1
  if halfMaps then
    if img.1 % 2 = 0 then (full, add_slice D img.2 S.2.1, S.2.2)
    else (full, S.2.1, add_slice D img.2 S.2.2)
  else (full, S.2.1, S.2.2)

/-- The orchestrator's accumulation loop: fold `orchestratorStep` over the
processed images in order. -/
noncomputable def orchestrate (halfMaps : Bool) (D : ℕ)
    (imgs : List (ℤ × Slice)) (S : GridPair × GridPair × GridPair) :
    GridPair × GridPair × GridPair :=
  imgs.foldl (fun S img => orchestratorStep halfMaps D img S) S

/-! ### Gold-standard FSC orchestration (`main`, lines 337-362)

`calculate_fsc` and `get_fsc_thresholds` live in
`cryodrgn/commands_utils/fsc.py`, which is not part of the sources here.
Modelled from the spec: `calculate_fsc` maps two half-map volumes, an
optional mask and an optional phase-randomization seed to an FSC curve, and
`get_fsc_thresholds` extracts the curve's optional threshold crossing (the
fractional frequency `threshold_bin / grid_size`, or none when the curve
never crosses the cutoff). Both are taken as explicit function arguments. -/

/-- The `Corrected` entry of `fsc_vals`/`fsc_thresh` (lines 346-358): when the
tight-mask curve has a valid threshold crossing `t`, recompute the curve
under the tight mask with phase randomization `0.75 * t`; otherwise reuse the
tight-mask curve and threshold unchanged. -/
def correctedFsc {Vol Mask Curve : Type}
    (calculate_fsc : Vol → Vol → Option Mask → Option ℚ → Curve)
    (get_fsc_thresholds : Curve → Option ℚ)
    (half1 half2 : Vol) (tightMask : Mask) : Curve × Option ℚ :=
  let tightCurve := calculate_fsc half1 half2 (some tightMask) none
  match get_fsc_thresholds tightCurve with
  | some t =>
      let cur := calculate_fsc half1 half2 (some tightMask) (some (0.75 * t))
      (cur, get_fsc_thresholds cur)
  | none => (tightCurve, get_fsc_thresholds tightCurve)

/-- `fsc_angs = (1 / fsc_val) * Apix` (lines 360-362): convert a threshold
crossing to a resolution in Angstroms. -/
def resolutionAngstrom (apix fsc_val : ℚ) : ℚ := (1 / fsc_val) * apix

/-- Modelled from the spec: the threshold value produced by
`get_fsc_thresholds` (in `cryodrgn/commands_utils/fsc.py`, not among the
sources) for a crossing at bin index `bin` on a grid of size `D` is the
fractional frequency `threshold_bin / grid_size`. -/
def thresholdValue (bin D : ℚ) : ℚ := bin / D

/-! ### Auxiliary views used by the theorems -/

/-- The net contribution of one `add_for_corner` call, as a grid pair:
`add_for_corner` adds exactly this to its input. -/
noncomputable def cornerDelta (d2 : ℤ) (c : Coord) (ff ctf_mul : ℚ)
    (corner : Corner) : GridPair :=
  (fun q => if q = cornerIdx d2 corner then
      splatWeight corner c * (ff : ℝ) * (ctf_mul : ℝ) else 0,
    fun q => if q = cornerIdx d2 corner then
      splatWeight corner c * (ctf_mul : ℝ) ^ 2 else 0)

/-- The net contribution of one sample: the sum of its eight corner
contributions. -/
noncomputable def sampleDelta (D : ℕ) (s : Sample) : GridPair :=
  let d2 : ℤ := (D / 2 : ℕ)
  let c := clipCoord d2 s.coord
  ((cornersOf c).map (cornerDelta d2 c s.ff s.ctfMul)).sum

/-- The net contribution of one image slice: the sum over its samples. -/
noncomputable def sliceDelta (D : ℕ) (s : Slice) : GridPair :=
  (s.map (sampleDelta D)).sum

/-- The number of axes along which floor and ceil of a coordinate coincide
(the `k` of the coinciding-corner analysis). -/
def numCoincident (c : Coord) : ℕ :=
  (if ⌊c.1⌋ = ⌈c.1⌉ then 1 else 0) + (if ⌊c.2.1⌋ = ⌈c.2.1⌉ then 1 else 0) +
    (if ⌊c.2.2⌋ = ⌈c.2.2⌉ then 1 else 0)

/-! ## Properties of the splat weight -/

theorem splatWeight_nonneg (corner : Corner) (c : Coord) :
    0 ≤ splatWeight corner c := by
  unfold splatWeight
  dsimp only
  split
  · exact le_refl 0
  · linarith [not_lt.mp (by assumption : ¬(1 : ℝ) -
      Real.sqrt (((corner.1 : ℝ) - (c.1 : ℝ)) ^ 2 + ((corner.2.1 : ℝ) - (c.2.1 : ℝ)) ^ 2 +
        ((corner.2.2 : ℝ) - (c.2.2 : ℝ)) ^ 2) < 0)]

theorem splatWeight_le_one (corner : Corner) (c : Coord) :
    splatWeight corner c ≤ 1 := by
  unfold splatWeight
  dsimp only
  split
  · exact zero_le_one
  · have := Real.sqrt_nonneg (((corner.1 : ℝ) - (c.1 : ℝ)) ^ 2 +
      ((corner.2.1 : ℝ) - (c.2.1 : ℝ)) ^ 2 + ((corner.2.2 : ℝ) - (c.2.2 : ℝ)) ^ 2)
    linarith

theorem splatWeight_eq_one_iff (corner : Corner) (c : Coord) :
    splatWeight corner c = 1 ↔
      ((corner.1 : ℚ), (corner.2.1 : ℚ), (corner.2.2 : ℚ)) = c := by
  have hsq : (0 : ℝ) ≤ ((corner.1 : ℝ) - (c.1 : ℝ)) ^ 2 +
      ((corner.2.1 : ℝ) - (c.2.1 : ℝ)) ^ 2 + ((corner.2.2 : ℝ) - (c.2.2 : ℝ)) ^ 2 := by
    positivity
  have hzero : (((corner.1 : ℝ) - (c.1 : ℝ)) ^ 2 + ((corner.2.1 : ℝ) - (c.2.1 : ℝ)) ^ 2 +
      ((corner.2.2 : ℝ) - (c.2.2 : ℝ)) ^ 2 = 0) ↔
      ((corner.1 : ℚ), (corner.2.1 : ℚ), (corner.2.2 : ℚ)) = c := by
    constructor
    · intro h
      have h1 : ((corner.1 : ℝ) - (c.1 : ℝ)) ^ 2 = 0 := by
        nlinarith [sq_nonneg ((corner.1 : ℝ) - (c.1 : ℝ)),
          sq_nonneg ((corner.2.1 : ℝ) - (c.2.1 : ℝ)),
          sq_nonneg ((corner.2.2 : ℝ) - (c.2.2 : ℝ))]
      have h2 : ((corner.2.1 : ℝ) - (c.2.1 : ℝ)) ^ 2 = 0 := by
        nlinarith [sq_nonneg ((corner.1 : ℝ) - (c.1 : ℝ)),
          sq_nonneg ((corner.2.1 : ℝ) - (c.2.1 : ℝ)),
          sq_nonneg ((corner.2.2 : ℝ) - (c.2.2 : ℝ))]
      have h3 : ((corner.2.2 : ℝ) - (c.2.2 : ℝ)) ^ 2 = 0 := by
        nlinarith [sq_nonneg ((corner.1 : ℝ) - (c.1 : ℝ)),
          sq_nonneg ((corner.2.1 : ℝ) - (c.2.1 : ℝ)),
          sq_nonneg ((corner.2.2 : ℝ) - (c.2.2 : ℝ))]
      have e1 : (corner.1 : ℚ) = c.1 := by
        have := sub_eq_zero.mp (pow_eq_zero_iff (two_ne_zero) |>.mp h1)
        exact_mod_cast this
      have e2 : (corner.2.1 : ℚ) = c.2.1 := by
        have := sub_eq_zero.mp (pow_eq_zero_iff (two_ne_zero) |>.mp h2)
        exact_mod_cast this
      have e3 : (corner.2.2 : ℚ) = c.2.2 := by
        have := sub_eq_zero.mp (pow_eq_zero_iff (two_ne_zero) |>.mp h3)
        exact_mod_cast this
      exact Prod.ext e1 (Prod.ext e2 e3)
    · intro h
      rw [← h]
      push_cast
      ring
  unfold splatWeight
  dsimp only
  split
  · rename_i hw
    constructor
    · intro h; exact absurd h.symm (by norm_num)
    · intro h
      exfalso
      rw [← hzero] at h
      rw [h, Real.sqrt_zero] at hw
      norm_num at hw
  · constructor
    · intro h
      have hs : Real.sqrt (((corner.1 : ℝ) - (c.1 : ℝ)) ^ 2 +
          ((corner.2.1 : ℝ) - (c.2.1 : ℝ)) ^ 2 + ((corner.2.2 : ℝ) - (c.2.2 : ℝ)) ^ 2) = 0 := by
        linarith
      exact hzero.mp ((Real.sqrt_eq_zero hsq).mp hs)
    · intro h
      rw [← hzero] at h
      rw [h, Real.sqrt_zero]; ring

theorem splatWeight_eval (corner : Corner) (c : Coord) {S : ℝ}
    (hS : ((corner.1 : ℝ) - (c.1 : ℝ)) ^ 2 + ((corner.2.1 : ℝ) - (c.2.1 : ℝ)) ^ 2 +
      ((corner.2.2 : ℝ) - (c.2.2 : ℝ)) ^ 2 = S) (h1 : Real.sqrt S ≤ 1) :
    splatWeight corner c = 1 - Real.sqrt S := by
  unfold splatWeight
  dsimp only
  rw [hS, if_neg (by linarith)]

/-- C1: in `add_slice`, for every sample and each of its eight enclosing
floor/ceil corners, the splat weight is the distance-based kernel
`max(0, 1 - euclidean_distance(corner, clipped coord))`: it always lies in
`[0, 1]`, and it equals `1` exactly when the clipped sample coordinate equals
that integer corner.  Moreover the kernel is not the separable trilinear
product: at corner `(0,0,0)` and coordinate `(1/2, 1/2, 0)` the weight
`1 - sqrt(1/2)` differs from the trilinear `(1 - 1/2)(1 - 1/2)(1 - 0)`. -/
theorem add_slice_splat_weight_bounds :
    (∀ (D : ℕ) (c : Coord),
      ∀ corner ∈ cornersOf (clipCoord ((D / 2 : ℕ) : ℤ) c),
        (0 ≤ splatWeight corner (clipCoord ((D / 2 : ℕ) : ℤ) c) ∧
          splatWeight corner (clipCoord ((D / 2 : ℕ) : ℤ) c) ≤ 1) ∧
        (splatWeight corner (clipCoord ((D / 2 : ℕ) : ℤ) c) = 1 ↔
          ((corner.1 : ℚ), (corner.2.1 : ℚ), (corner.2.2 : ℚ)) =
            clipCoord ((D / 2 : ℕ) : ℤ) c)) ∧
    splatWeight ((0, 0, 0) : Corner) ((1 / 2, 1 / 2, 0) : Coord) ≠
      (1 - (1 / 2 : ℝ)) * (1 - (1 / 2 : ℝ)) * (1 - 0) := by
  constructor
  · intro D c corner _
    exact ⟨⟨splatWeight_nonneg _ _, splatWeight_le_one _ _⟩,
      splatWeight_eq_one_iff _ _⟩
  · have h1 : Real.sqrt (1 / 2 : ℝ) ≤ 1 := by
      rw [show (1 : ℝ) = Real.sqrt 1 by rw [Real.sqrt_one]]
      exact Real.sqrt_le_sqrt (by norm_num)
    have key : splatWeight ((0, 0, 0) : Corner) ((1 / 2, 1 / 2, 0) : Coord) =
        1 - Real.sqrt (1 / 2 : ℝ) := by
      refine splatWeight_eval _ _ ?_ h1
      push_cast
      norm_num
    rw [key]
    intro h
    have hsq : Real.sqrt (1 / 2 : ℝ) = 3 / 4 := by linarith
    have : ((1 : ℝ) / 2) = (3 / 4 : ℝ) ^ 2 := by
      rw [← hsq, Real.sq_sqrt (by norm_num : (0:ℝ) ≤ 1 / 2)]
    norm_num at this

/-- Witness for C1 at `D = 4`, coordinate `(1/2, 0, 0)`, corner `(0, 0, 0)`. -/
theorem add_slice_splat_weight_bounds_witness :
    ((0, 0, 0) : Corner) ∈
        cornersOf (clipCoord ((4 / 2 : ℕ) : ℤ) ((1 / 2, 0, 0) : Coord)) ∧
      (0 ≤ splatWeight ((0, 0, 0) : Corner)
          (clipCoord ((4 / 2 : ℕ) : ℤ) ((1 / 2, 0, 0) : Coord)) ∧
        splatWeight ((0, 0, 0) : Corner)
          (clipCoord ((4 / 2 : ℕ) : ℤ) ((1 / 2, 0, 0) : Coord)) ≤ 1) :=
  ⟨by norm_num [cornersOf, clipCoord, ratClip],
    (add_slice_splat_weight_bounds.1 4 ((1 / 2, 0, 0) : Coord)
      ((0, 0, 0) : Corner) (by norm_num [cornersOf, clipCoord, ratClip])).1⟩

/-! ## Additive decomposition of the slice inserter -/

theorem zeroPair_eq_zero : zeroPair = 0 := rfl

theorem add_for_corner_eq (d2 : ℤ) (c : Coord) (ff ctf_mul : ℚ)
    (corner : Corner) (P : GridPair) :
    add_for_corner d2 c ff ctf_mul corner P =
      P + cornerDelta d2 c ff ctf_mul corner := by
  unfold add_for_corner cornerDelta gridAdd
  dsimp only
  refine Prod.ext ?_ ?_ <;> funext q <;>
    by_cases h : q = cornerIdx d2 corner <;> simp [h, Prod.fst_add, Prod.snd_add]

theorem foldl_add_decomp {α M : Type} [AddCommMonoid M] (f : α → M → M)
    (g : α → M) (h : ∀ a P, f a P = P + g a) :
    ∀ (l : List α) (P : M), l.foldl (fun P a => f a P) P = P + (l.map g).sum := by
  intro l
  induction l with
  | nil => intro P; simp
  | cons a t ih =>
      intro P
      simp only [List.foldl_cons, List.map_cons, List.sum_cons]
      rw [h, ih, add_assoc]

theorem add_slice_sample_eq (D : ℕ) (s : Sample) (P : GridPair) :
    add_slice_sample D s P = P + sampleDelta D s := by
  unfold add_slice_sample sampleDelta
  exact foldl_add_decomp _ _
    (fun corner P => add_for_corner_eq _ _ s.ff s.ctfMul corner P) _ P

theorem add_slice_eq (D : ℕ) (s : Slice) (P : GridPair) :
    add_slice D s P = P + sliceDelta D s := by
  unfold add_slice sliceDelta
  exact foldl_add_decomp _ _ (fun smp P => add_slice_sample_eq D smp P) s P

theorem insertSlices_eq (D : ℕ) (l : List Slice) (P : GridPair) :
    insertSlices D l P = P + (l.map (sliceDelta D)).sum := by
  unfold insertSlices
  exact foldl_add_decomp _ _ (fun s P => add_slice_eq D s P) l P

/-- C2: slice insertion is purely additive and commutative.  Inserting a
collection of image slices through `add_slice` in any order yields the same
`(volume, counts)` grids, and inserting two disjoint sub-batches into their
own zero-initialized grid pairs and summing the pairs equals inserting all
slices into one grid pair in a single pass (exactly, in the real-arithmetic
model of the float tensors). -/
theorem add_slice_additive_commutative :
    (∀ (D : ℕ) (l l' : List Slice) (P : GridPair), l.Perm l' →
      insertSlices D l P = insertSlices D l' P) ∧
    (∀ (D : ℕ) (l₁ l₂ : List Slice),
      insertSlices D (l₁ ++ l₂) zeroPair =
        insertSlices D l₁ zeroPair + insertSlices D l₂ zeroPair) := by
  constructor
  · intro D l l' P hp
    rw [insertSlices_eq, insertSlices_eq, (hp.map (sliceDelta D)).sum_eq]
  · intro D l₁ l₂
    rw [insertSlices_eq, insertSlices_eq, insertSlices_eq, List.map_append,
      List.sum_append, zeroPair_eq_zero]
    rw [zero_add, zero_add, zero_add]

/-- Witness for C2: swapping two concrete one-sample slices. -/
theorem add_slice_additive_commutative_witness :
    insertSlices 4
        [[⟨(0, 0, 0), 1, 1⟩], [⟨(1, 0, 0), 2, 1⟩]] zeroPair =
      insertSlices 4
        [[⟨(1, 0, 0), 2, 1⟩], [⟨(0, 0, 0), 1, 1⟩]] zeroPair :=
  add_slice_additive_commutative.1 4 _ _ zeroPair (List.Perm.swap _ _ _)

/-! ## Clipping and index bounds (`add_slice`) -/

theorem ratClip_bounds (d2 : ℤ) (h : 0 ≤ d2) (q : ℚ) :
    -(d2 : ℚ) ≤ ratClip d2 q ∧ ratClip d2 q ≤ (d2 : ℚ) := by
  unfold ratClip
  have hd : -(d2 : ℚ) ≤ (d2 : ℚ) := by
    have : (0 : ℚ) ≤ (d2 : ℚ) := by exact_mod_cast h
    linarith
  exact ⟨le_max_left _ _, max_le hd (min_le_left _ _)⟩

theorem corner_component_bounds {d2 : ℤ} {q : ℚ}
    (hlo : -(d2 : ℚ) ≤ q) (hhi : q ≤ (d2 : ℚ)) :
    (-d2 ≤ ⌊q⌋ ∧ ⌊q⌋ ≤ d2) ∧ (-d2 ≤ ⌈q⌉ ∧ ⌈q⌉ ≤ d2) := by
  refine ⟨⟨?_, ?_⟩, ⟨?_, ?_⟩⟩
  · exact Int.le_floor.mpr (by exact_mod_cast hlo)
  · calc ⌊q⌋ ≤ ⌊(d2 : ℚ)⌋ := Int.floor_le_floor hhi
      _ = d2 := Int.floor_intCast d2
  · have := (Int.le_ceil q).trans' hlo
    exact_mod_cast this
  · exact Int.ceil_le.mpr (by exact_mod_cast hhi)

theorem mem_cornersOf_cases {c : Coord} {corner : Corner}
    (h : corner ∈ cornersOf c) :
    (corner.1 = ⌊c.1⌋ ∨ corner.1 = ⌈c.1⌉) ∧
      (corner.2.1 = ⌊c.2.1⌋ ∨ corner.2.1 = ⌈c.2.1⌉) ∧
      (corner.2.2 = ⌊c.2.2⌋ ∨ corner.2.2 = ⌈c.2.2⌉) := by
  simp only [cornersOf, List.mem_cons, List.not_mem_nil, or_false] at h
  rcases h with h | h | h | h | h | h | h | h <;> subst h <;> simp

/-- C3 (amended): `add_slice` clips every sample coordinate componentwise to
`[-floor(D/2), floor(D/2)]` before any use, folding out-of-range samples to
the boundary; consequently every accessed grid index component lies in
`[0, 2*floor(D/2)]`, hence in `[0, D)` whenever `D` is odd (as for the grids
of `main`, where `D` is one plus an even image size).  For even `D` the
index `2*(D/2) = D` itself can be accessed. -/
theorem add_slice_clip_and_index_bounds :
    ∀ (D : ℕ) (c : Coord),
      (-(((D / 2 : ℕ) : ℤ) : ℚ) ≤ (clipCoord ((D / 2 : ℕ) : ℤ) c).1 ∧
          (clipCoord ((D / 2 : ℕ) : ℤ) c).1 ≤ (((D / 2 : ℕ) : ℤ) : ℚ) ∧
        -(((D / 2 : ℕ) : ℤ) : ℚ) ≤ (clipCoord ((D / 2 : ℕ) : ℤ) c).2.1 ∧
          (clipCoord ((D / 2 : ℕ) : ℤ) c).2.1 ≤ (((D / 2 : ℕ) : ℤ) : ℚ) ∧
        -(((D / 2 : ℕ) : ℤ) : ℚ) ≤ (clipCoord ((D / 2 : ℕ) : ℤ) c).2.2 ∧
          (clipCoord ((D / 2 : ℕ) : ℤ) c).2.2 ≤ (((D / 2 : ℕ) : ℤ) : ℚ)) ∧
      (∀ p ∈ addSliceIndices D c,
        (0 ≤ p.1 ∧ p.1 ≤ 2 * ((D / 2 : ℕ) : ℤ)) ∧
          (0 ≤ p.2.1 ∧ p.2.1 ≤ 2 * ((D / 2 : ℕ) : ℤ)) ∧
          (0 ≤ p.2.2 ∧ p.2.2 ≤ 2 * ((D / 2 : ℕ) : ℤ))) ∧
      (Odd D → ∀ p ∈ addSliceIndices D c,
        p.1 < (D : ℤ) ∧ p.2.1 < (D : ℤ) ∧ p.2.2 < (D : ℤ)) := by
  intro D c
  have hd2 : (0 : ℤ) ≤ ((D / 2 : ℕ) : ℤ) := Int.ofNat_nonneg _
  have hb1 := ratClip_bounds ((D / 2 : ℕ) : ℤ) hd2 c.1
  have hb2 := ratClip_bounds ((D / 2 : ℕ) : ℤ) hd2 c.2.1
  have hb3 := ratClip_bounds ((D / 2 : ℕ) : ℤ) hd2 c.2.2
  have hidx : ∀ p ∈ addSliceIndices D c,
      (0 ≤ p.1 ∧ p.1 ≤ 2 * ((D / 2 : ℕ) : ℤ)) ∧
        (0 ≤ p.2.1 ∧ p.2.1 ≤ 2 * ((D / 2 : ℕ) : ℤ)) ∧
        (0 ≤ p.2.2 ∧ p.2.2 ≤ 2 * ((D / 2 : ℕ) : ℤ)) := by
    intro p hp
    unfold addSliceIndices at hp
    obtain ⟨corner, hc, rfl⟩ := List.mem_map.mp hp
    have hcc := mem_cornersOf_cases hc
    simp only [clipCoord] at hcc
    obtain ⟨hx, hy, hz⟩ := hcc
    have bx := corner_component_bounds hb1.1 hb1.2
    have by' := corner_component_bounds hb2.1 hb2.2
    have bz := corner_component_bounds hb3.1 hb3.2
    have hgx : -((D / 2 : ℕ) : ℤ) ≤ corner.1 ∧ corner.1 ≤ ((D / 2 : ℕ) : ℤ) := by
      rcases hx with h | h <;> rw [h]
      · exact bx.1
      · exact bx.2
    have hgy : -((D / 2 : ℕ) : ℤ) ≤ corner.2.1 ∧ corner.2.1 ≤ ((D / 2 : ℕ) : ℤ) := by
      rcases hy with h | h <;> rw [h]
      · exact by'.1
      · exact by'.2
    have hgz : -((D / 2 : ℕ) : ℤ) ≤ corner.2.2 ∧ corner.2.2 ≤ ((D / 2 : ℕ) : ℤ) := by
      rcases hz with h | h <;> rw [h]
      · exact bz.1
      · exact bz.2
    dsimp only [cornerIdx]
    exact ⟨⟨by omega, by omega⟩, ⟨by omega, by omega⟩, by omega, by omega⟩
  refine ⟨⟨hb1.1, hb1.2, hb2.1, hb2.2, hb3.1, hb3.2⟩, hidx, ?_⟩
  intro hodd p hp
  obtain ⟨k, hk⟩ := hodd
  have hD2 : (D / 2 : ℕ) = k := by omega
  have h := hidx p hp
  rw [hD2] at h
  refine ⟨?_, ?_, ?_⟩ <;> omega

/-- Counterexample to C3 as stated: for even `D = 2` the sample coordinate
`(1, 1, 1)` (already at the clip boundary `floor(D/2) = 1`) makes
`add_slice` access grid index `(2, 2, 2)`, whose components are not below
`D = 2`. -/
theorem add_slice_index_not_lt_D :
    ((2, 2, 2) : ℤ × ℤ × ℤ) ∈ addSliceIndices 2 ((1, 1, 1) : Coord) ∧
      ¬ ((2 : ℤ) < (2 : ℕ)) := by
  constructor
  · norm_num [addSliceIndices, cornersOf, clipCoord, ratClip, cornerIdx,
      List.mem_map]
  · norm_num

/-- Witness for the amended C3 at odd `D = 5`, coordinate `(1/2, 0, 0)`,
accessed index `(2, 2, 2)`. -/
theorem add_slice_clip_and_index_bounds_witness :
    Odd 5 ∧ ((2, 2, 2) : ℤ × ℤ × ℤ) ∈ addSliceIndices 5 ((1 / 2, 0, 0) : Coord) ∧
      ((2 : ℤ) < (5 : ℤ) ∧ (2 : ℤ) < (5 : ℤ) ∧ (2 : ℤ) < (5 : ℤ)) :=
  ⟨by decide, by norm_num [addSliceIndices, cornersOf, clipCoord, ratClip,
      cornerIdx, List.mem_map],
    (add_slice_clip_and_index_bounds 5 ((1 / 2, 0, 0) : Coord)).2.2 (by decide)
      ((2, 2, 2) : ℤ × ℤ × ℤ)
      (by norm_num [addSliceIndices, cornersOf, clipCoord, ratClip, cornerIdx,
        List.mem_map])⟩

/-! ## The volume regularizer -/

theorem gmean_mul_const {D : ℕ} {K : Type} [Field K] (G : FGrid D K) (k : K) :
    gmean (fun x y z => G x y z * k) = gmean G * k := by
  unfold gmean
  simp only [← Finset.sum_mul]
  rw [mul_div_right_comm]

theorem gmean_const_mul {D : ℕ} {K : Type} [Field K] (G : FGrid D K) (s : K) :
    gmean (fun x y z => s * G x y z) = s * gmean G := by
  unfold gmean
  simp only [← Finset.mul_sum]
  rw [mul_div_assoc]

theorem gmean_add_const {D : ℕ} {K : Type} [LinearOrderedField K] (hD : 0 < D)
    (G : FGrid D K) (k : K) :
    gmean (fun x y z => G x y z + k) = gmean G + k := by
  unfold gmean
  have hD3 : ((D : K)) ^ 3 ≠ 0 :=
    pow_ne_zero _ (Nat.cast_pos.mpr hD).ne'
  have hsum : (∑ x : Fin D, ∑ y : Fin D, ∑ z : Fin D, (G x y z + k)) =
      (∑ x : Fin D, ∑ y : Fin D, ∑ z : Fin D, G x y z) + (D : K) ^ 3 * k := by
    simp [Finset.sum_add_distrib, Finset.mul_sum, Finset.card_univ]
    ring
  rw [hsum, add_div]
  congr 1
  exact mul_div_cancel_left₀ k hD3

/-- C4: `regularize_volume(volume, counts, reg_weight)` computes
`regularized_counts = counts + reg_weight * mean(counts)`, rescales it so
that its mean equals `mean(counts)`, divides `volume` elementwise by the
result, drops the last index along each axis (D-cube to D-1), and applies
the inverse origin-centered Hartley transform `ihtn_center`; as a shallow
embedding it is a pure function of its inputs. -/
theorem regularize_volume_spec (K : Type) [LinearOrderedField K] :
    ∀ (D : ℕ), 0 < D →
      ∀ (ihtn_center : FGrid (D - 1) K → FGrid (D - 1) K)
        (V C : FGrid D K) (rw : K),
        regularize_volume ihtn_center V C rw =
            ihtn_center (trimGrid (fun x y z => V x y z / rescaledCounts C rw x y z)) ∧
          (∀ x y z, regularizedCounts C rw x y z = C x y z + rw * gmean C) ∧
          (∀ (G : FGrid D K) (x y z : Fin (D - 1)),
            trimGrid G x y z = G (Fin.castLE (Nat.sub_le D 1) x)
              (Fin.castLE (Nat.sub_le D 1) y) (Fin.castLE (Nat.sub_le D 1) z)) ∧
          (gmean C * (1 + rw) ≠ 0 →
            gmean (rescaledCounts C rw) = gmean C) := by
  intro D hD ihtn_center V C rw
  refine ⟨rfl, fun x y z => rfl, fun G x y z => rfl, ?_⟩
  intro h
  have hmreg : gmean (regularizedCounts C rw) = gmean C * (1 + rw) := by
    unfold regularizedCounts
    rw [gmean_add_const hD]
    ring
  have h1 : gmean C ≠ 0 := left_ne_zero_of_mul h
  have h2 : (1 + rw) ≠ 0 := right_ne_zero_of_mul h
  unfold rescaledCounts
  rw [gmean_mul_const, hmreg]
  field_simp

/-- Witness for C4 at `K = ℚ`, `D = 1`, constant grids. -/
theorem regularize_volume_spec_witness :
    0 < 1 ∧ gmean (fun _ _ _ => (1 : ℚ) : FGrid 1 ℚ) * (1 + 1) ≠ 0 ∧
      gmean (rescaledCounts (fun _ _ _ => (1 : ℚ) : FGrid 1 ℚ) 1) =
        gmean (fun _ _ _ => (1 : ℚ) : FGrid 1 ℚ) := by
  have hm : gmean (fun _ _ _ => (1 : ℚ) : FGrid 1 ℚ) = 1 := by
    simp [gmean]
  refine ⟨Nat.one_pos, by rw [hm]; norm_num, ?_⟩
  exact (regularize_volume_spec ℚ 1 Nat.one_pos id (fun _ _ _ => 1)
    (fun _ _ _ => 1) 1).2.2.2 (by rw [hm]; norm_num)

/-- C5: scaling both the volume and the counts inputs of
`regularize_volume` by the same positive constant leaves the output
unchanged: the `reg_weight * mean(counts)` term scales together with the
counts, so the common factor cancels in the elementwise division. -/
theorem regularize_volume_scale_invariant (K : Type) [LinearOrderedField K] :
    ∀ (s : K), 0 < s →
      ∀ (D : ℕ) (ihtn_center : FGrid (D - 1) K → FGrid (D - 1) K)
        (V C : FGrid D K) (rw : K),
        regularize_volume ihtn_center (fun x y z => s * V x y z)
            (fun x y z => s * C x y z) rw =
          regularize_volume ihtn_center V C rw := by
  intro s hs D ihtn_center V C rw
  have hsne : s ≠ 0 := hs.ne'
  have hmC : gmean (fun x y z => s * C x y z) = s * gmean C :=
    gmean_const_mul C s
  have hreg : ∀ x y z, regularizedCounts (fun x y z => s * C x y z) rw x y z =
      s * regularizedCounts C rw x y z := by
    intro x y z
    unfold regularizedCounts
    rw [hmC]
    ring
  have hregfun : regularizedCounts (fun x y z => s * C x y z) rw =
      fun x y z => s * regularizedCounts C rw x y z :=
    funext fun x => funext fun y => funext fun z => hreg x y z
  have hmreg : gmean (regularizedCounts (fun x y z => s * C x y z) rw) =
      s * gmean (regularizedCounts C rw) := by
    rw [hregfun, gmean_const_mul]
  have hresc : ∀ x y z, rescaledCounts (fun x y z => s * C x y z) rw x y z =
      s * rescaledCounts C rw x y z := by
    intro x y z
    unfold rescaledCounts
    rw [hreg, hmreg, hmC, mul_div_mul_left _ _ hsne]
    ring
  unfold regularize_volume
  refine congrArg ihtn_center ?_
  unfold trimGrid regVolumeQuotient
  funext x y z
  dsimp only
  rw [hresc, mul_div_mul_left _ _ hsne]

/-- Witness for C5 at `K = ℚ`, `s = 2`, `D = 1`, constant grids. -/
theorem regularize_volume_scale_invariant_witness :
    0 < (2 : ℚ) ∧
      regularize_volume id (fun _ _ _ => 2 * 3 : FGrid 1 ℚ)
          (fun _ _ _ => 2 * 5 : FGrid 1 ℚ) 1 =
        regularize_volume id (fun _ _ _ => 3 : FGrid 1 ℚ)
          (fun _ _ _ => 5 : FGrid 1 ℚ) 1 :=
  ⟨by norm_num,
    regularize_volume_scale_invariant ℚ 2 (by norm_num) 1 id
      (fun _ _ _ => 3) (fun _ _ _ => 5) 1⟩

/-! ## The orchestrator's three accumulation streams -/

theorem insertSlices_cons (D : ℕ) (s : Slice) (l : List Slice) (P : GridPair) :
    insertSlices D (s :: l) P = insertSlices D l (add_slice D s P) := rfl

/-- C6: for every processed image `(ii, slice)` the orchestrator inserts the
slice into the full accumulator always and, when half-map output is
requested, additionally into half-1 exactly when `ii` is even and into
half-2 exactly when `ii` is odd; the three `(volume, counts)` streams are
accumulated independently, each as a fold over its own sub-list of images
starting from its own initial grids. -/
theorem orchestrator_stream_routing :
    ∀ (halfMaps : Bool) (D : ℕ) (imgs : List (ℤ × Slice)) (F H1 H2 : GridPair),
      orchestrate halfMaps D imgs (F, H1, H2) =
        (insertSlices D (imgs.map Prod.snd) F,
          if halfMaps then
            insertSlices D ((imgs.filter (fun img => img.1 % 2 = 0)).map Prod.snd) H1
          else H1,
          if halfMaps then
            insertSlices D ((imgs.filter (fun img => img.1 % 2 ≠ 0)).map Prod.snd) H2
          else H2) := by
  intro halfMaps D imgs
  induction imgs with
  | nil => intro F H1 H2; cases halfMaps <;> simp [orchestrate, insertSlices]
  | cons hd tl ih =>
      intro F H1 H2
      rw [show orchestrate halfMaps D (hd :: tl) (F, H1, H2) =
        orchestrate halfMaps D tl (orchestratorStep halfMaps D hd (F, H1, H2))
        from rfl]
      cases halfMaps with
      | false =>
          rw [show orchestratorStep false D hd (F, H1, H2) =
            (add_slice D hd.2 F, H1, H2) from rfl, ih]
          simp [insertSlices_cons]
      | true =>
          by_cases hp : hd.1 % 2 = 0
          · rw [show orchestratorStep true D hd (F, H1, H2) =
              (add_slice D hd.2 F, add_slice D hd.2 H1, H2) from
                (by simp [orchestratorStep, hp]), ih]
            have hp2 : (2 : ℤ) ∣ hd.1 := by omega
            simp [List.filter_cons, hp, hp2, insertSlices_cons]
          · rw [show orchestratorStep true D hd (F, H1, H2) =
              (add_slice D hd.2 F, H1, add_slice D hd.2 H2) from
                (by simp [orchestratorStep, hp]), ih]
            have hp1 : hd.1 % 2 = 1 := by omega
            have hp2 : ¬ (2 : ℤ) ∣ hd.1 := by omega
            simp [List.filter_cons, hp, hp1, hp2, insertSlices_cons]

/-! ## Zero-count flooring and division safety -/

theorem list_sum_eq_zero_of_nonneg {l : List ℝ} (h : ∀ x ∈ l, 0 ≤ x)
    (hs : l.sum = 0) : ∀ x ∈ l, x = 0 := by
  induction l with
  | nil => intro x hx; cases hx
  | cons a t ih =>
      have ha : 0 ≤ a := h a (List.mem_cons_self a t)
      have ht : 0 ≤ t.sum :=
        List.sum_nonneg fun x hx => h x (List.mem_cons_of_mem a hx)
      rw [List.sum_cons] at hs
      have ha0 : a = 0 := by linarith
      have hts : t.sum = 0 := by linarith
      intro x hx
      rcases List.mem_cons.mp hx with rfl | hx
      · exact ha0
      · exact ih (fun y hy => h y (List.mem_cons_of_mem a hy)) hts x hx

theorem pairSum_fst (l : List GridPair) (p : ℤ × ℤ × ℤ) :
    (l.sum).1 p = (l.map (fun P => P.1 p)).sum := by
  induction l with
  | nil => rfl
  | cons a t ih =>
      simp only [List.sum_cons, List.map_cons, Prod.fst_add, Pi.add_apply, ih]

theorem pairSum_snd (l : List GridPair) (p : ℤ × ℤ × ℤ) :
    (l.sum).2 p = (l.map (fun P => P.2 p)).sum := by
  induction l with
  | nil => rfl
  | cons a t ih =>
      simp only [List.sum_cons, List.map_cons, Prod.snd_add, Pi.add_apply, ih]

theorem cornerDelta_snd_nonneg (d2 : ℤ) (c : Coord) (ff ctf_mul : ℚ)
    (corner : Corner) (p : ℤ × ℤ × ℤ) :
    0 ≤ (cornerDelta d2 c ff ctf_mul corner).2 p := by
  dsimp only [cornerDelta]
  split
  · exact mul_nonneg (splatWeight_nonneg _ _) (by positivity)
  · exact le_refl 0

theorem sampleDelta_snd_nonneg (D : ℕ) (smp : Sample) (p : ℤ × ℤ × ℤ) :
    0 ≤ (sampleDelta D smp).2 p := by
  unfold sampleDelta
  rw [pairSum_snd, List.map_map]
  apply List.sum_nonneg
  intro x hx
  obtain ⟨corner, _, rfl⟩ := List.mem_map.mp hx
  exact cornerDelta_snd_nonneg _ _ _ _ corner p

theorem sampleDelta_zero_fst (D : ℕ) (smp : Sample) (p : ℤ × ℤ × ℤ)
    (h : (sampleDelta D smp).2 p = 0) : (sampleDelta D smp).1 p = 0 := by
  unfold sampleDelta at h ⊢
  rw [pairSum_snd, List.map_map] at h
  rw [pairSum_fst, List.map_map]
  apply List.sum_eq_zero
  intro x hx
  obtain ⟨corner, hc, rfl⟩ := List.mem_map.mp hx
  have hzero := list_sum_eq_zero_of_nonneg
    (fun y hy => by
      obtain ⟨corner', _, rfl⟩ := List.mem_map.mp hy
      exact cornerDelta_snd_nonneg _ _ _ _ corner' p) h
    _ (List.mem_map_of_mem _ hc)
  dsimp only [cornerDelta, Function.comp] at hzero ⊢
  by_cases hpc : p = cornerIdx ((D / 2 : ℕ) : ℤ) corner
  · rw [if_pos hpc] at hzero ⊢
    rcases mul_eq_zero.mp hzero with hw | hc2
    · rw [hw]; ring
    · rw [pow_eq_zero_iff two_ne_zero |>.mp hc2]; ring
  · rw [if_neg hpc]

theorem sliceDelta_snd_nonneg (D : ℕ) (s : Slice) (p : ℤ × ℤ × ℤ) :
    0 ≤ (sliceDelta D s).2 p := by
  unfold sliceDelta
  rw [pairSum_snd, List.map_map]
  apply List.sum_nonneg
  intro x hx
  obtain ⟨smp, _, rfl⟩ := List.mem_map.mp hx
  exact sampleDelta_snd_nonneg D smp p

theorem sliceDelta_zero_fst (D : ℕ) (s : Slice) (p : ℤ × ℤ × ℤ)
    (h : (sliceDelta D s).2 p = 0) : (sliceDelta D s).1 p = 0 := by
  unfold sliceDelta at h ⊢
  rw [pairSum_snd, List.map_map] at h
  rw [pairSum_fst, List.map_map]
  apply List.sum_eq_zero
  intro x hx
  obtain ⟨smp, hsm, rfl⟩ := List.mem_map.mp hx
  have hzero := list_sum_eq_zero_of_nonneg
    (fun y hy => by
      obtain ⟨smp', _, rfl⟩ := List.mem_map.mp hy
      exact sampleDelta_snd_nonneg D smp' p) h
    _ (List.mem_map_of_mem _ hsm)
  exact sampleDelta_zero_fst D smp p hzero

theorem gmean_pos {D : ℕ} {K : Type} [LinearOrderedField K] (hD : 0 < D)
    (G : FGrid D K) (h : ∀ x y z, 0 < G x y z) : 0 < gmean G := by
  have : Nonempty (Fin D) := Fin.pos_iff_nonempty.mp hD
  unfold gmean
  apply div_pos
  · exact Finset.sum_pos
      (fun x _ => Finset.sum_pos
        (fun y _ => Finset.sum_pos (fun z _ => h x y z) Finset.univ_nonempty)
        Finset.univ_nonempty)
      Finset.univ_nonempty
  · exact pow_pos (Nat.cast_pos.mpr hD) 3

/-- C7: after accumulation every exactly-zero entry of a counts grid is
floored to `1`; with the floored counts the rescaled divisor inside
`regularize_volume` is strictly positive everywhere, so the elementwise
division never divides by zero, and a voxel whose accumulated count was zero
also has accumulated value zero, hence yields exactly zero signal in the
quotient grid.  The accumulated counts of `add_slice` are nonnegative, so
the flooring hypothesis holds for the grids of `main`. -/
theorem zero_count_flooring_safe :
    (∀ (D : ℕ) (rw : ℝ), 0 < D → 0 ≤ rw → ∀ (C V : FGrid D ℝ),
      (∀ x y z, 0 ≤ C x y z) →
        (∀ x y z, 0 < floorCounts C x y z) ∧
          (∀ x y z, 0 < rescaledCounts (floorCounts C) rw x y z) ∧
          (∀ x y z, C x y z = 0 → V x y z = 0 →
            regVolumeQuotient V (floorCounts C) rw x y z = 0)) ∧
    (∀ (D : ℕ) (l : List Slice) (p : ℤ × ℤ × ℤ),
      0 ≤ (insertSlices D l zeroPair).2 p ∧
        ((insertSlices D l zeroPair).2 p = 0 →
          (insertSlices D l zeroPair).1 p = 0)) := by
  constructor
  · intro D rw hD hrw C V hC
    have hfp : ∀ x y z, 0 < floorCounts C x y z := by
      intro x y z
      unfold floorCounts
      split
      · exact zero_lt_one
      · exact lt_of_le_of_ne (hC x y z) (Ne.symm (by assumption))
    have hm : 0 < gmean (floorCounts C) := gmean_pos hD _ hfp
    have hregp : ∀ x y z, 0 < regularizedCounts (floorCounts C) rw x y z := by
      intro x y z
      unfold regularizedCounts
      exact add_pos_of_pos_of_nonneg (hfp x y z) (mul_nonneg hrw hm.le)
    have hmreg : 0 < gmean (regularizedCounts (floorCounts C) rw) :=
      gmean_pos hD _ hregp
    refine ⟨hfp, ?_, ?_⟩
    · intro x y z
      unfold rescaledCounts
      exact mul_pos (hregp x y z) (div_pos hm hmreg)
    · intro x y z _ hv
      unfold regVolumeQuotient
      rw [hv]
      exact zero_div _
  · intro D l p
    have hsnd : (insertSlices D l zeroPair).2 p =
        (l.map (fun s => (sliceDelta D s).2 p)).sum := by
      rw [insertSlices_eq, zeroPair_eq_zero, zero_add, pairSum_snd, List.map_map]
      rfl
    have hfst : (insertSlices D l zeroPair).1 p =
        (l.map (fun s => (sliceDelta D s).1 p)).sum := by
      rw [insertSlices_eq, zeroPair_eq_zero, zero_add, pairSum_fst, List.map_map]
      rfl
    constructor
    · rw [hsnd]
      apply List.sum_nonneg
      intro x hx
      obtain ⟨s, _, rfl⟩ := List.mem_map.mp hx
      exact sliceDelta_snd_nonneg D s p
    · intro h
      rw [hsnd] at h
      rw [hfst]
      apply List.sum_eq_zero
      intro x hx
      obtain ⟨s, hsm, rfl⟩ := List.mem_map.mp hx
      have hzero := list_sum_eq_zero_of_nonneg
        (fun y hy => by
          obtain ⟨s', _, rfl⟩ := List.mem_map.mp hy
          exact sliceDelta_snd_nonneg D s' p) h
        _ (List.mem_map_of_mem _ hsm)
      exact sliceDelta_zero_fst D s p hzero

/-- Witness for C7 at `D = 1`, `reg_weight = 1`, all-zero counts grid. -/
theorem zero_count_flooring_safe_witness :
    0 < 1 ∧ 0 ≤ (1 : ℝ) ∧
      ∀ x y z : Fin 1, 0 < floorCounts (fun _ _ _ => (0 : ℝ) : FGrid 1 ℝ) x y z :=
  ⟨Nat.one_pos, zero_le_one,
    ((zero_count_flooring_safe.1 1 1 Nat.one_pos zero_le_one
      (fun _ _ _ => 0) (fun _ _ _ => 0) (fun _ _ _ => le_refl 0)).1)⟩

/-! ## Gold-standard FSC orchestration -/

/-- C8: if the tight-mask FSC curve has a valid threshold crossing `t`, the
`Corrected` curve is recomputed under the tight mask with phase
randomization seeded at `0.75 * t` (and its threshold re-extracted); if the
tight-mask curve has no valid crossing, the `Corrected` curve and threshold
are exactly the uncorrected tight-mask ones.  `correctedFsc` is a total
function, so neither case raises. -/
theorem corrected_fsc_fallback {Vol Mask Curve : Type}
    (calculate_fsc : Vol → Vol → Option Mask → Option ℚ → Curve)
    (get_fsc_thresholds : Curve → Option ℚ)
    (half1 half2 : Vol) (tightMask : Mask) :
    (∀ t : ℚ,
      get_fsc_thresholds (calculate_fsc half1 half2 (some tightMask) none) =
          some t →
        correctedFsc calculate_fsc get_fsc_thresholds half1 half2 tightMask =
          (calculate_fsc half1 half2 (some tightMask) (some (0.75 * t)),
            get_fsc_thresholds
              (calculate_fsc half1 half2 (some tightMask) (some (0.75 * t))))) ∧
    (get_fsc_thresholds (calculate_fsc half1 half2 (some tightMask) none) =
        none →
      correctedFsc calculate_fsc get_fsc_thresholds half1 half2 tightMask =
        (calculate_fsc half1 half2 (some tightMask) none, none)) := by
  constructor
  · intro t ht
    unfold correctedFsc
    dsimp only
    rw [ht]
  · intro ht
    unfold correctedFsc
    dsimp only
    rw [ht]

/-- Witness for C8: both branches at concrete instantiations of the
modelled FSC engine. -/
theorem corrected_fsc_fallback_witness :
    correctedFsc (fun (_ _ : Unit) (_ : Option Unit) pr => pr)
          (fun cur => cur) () () () = (none, none) ∧
      correctedFsc (fun (_ _ : Unit) (_ : Option Unit) pr => pr)
          (fun _ => some 1) () () () = (some (0.75 * 1), some 1) :=
  ⟨(corrected_fsc_fallback (fun _ _ _ pr => pr) (fun cur => cur) () () ()).2 rfl,
    (corrected_fsc_fallback (fun _ _ _ pr => pr) (fun _ => some 1) () () ()).1
      1 rfl⟩

/-- C9: the threshold crossing of an FSC curve is converted to Angstroms as
`(1 / fsc_val) * Apix`; with the spec-modelled threshold value
`threshold_bin / grid_size` this equals `pixel_size / (threshold_bin /
grid_size) = (grid_size / threshold_bin) * pixel_size`, and a crossing at
bin `D/4 = 16` with pixel size `1.0` and grid size `D = 64` maps to `4.0`
Angstroms. -/
theorem resolution_conversion :
    ∀ (bin D apix : ℚ), bin ≠ 0 → D ≠ 0 →
      (resolutionAngstrom apix (thresholdValue bin D) =
          apix / (bin / D) ∧
        resolutionAngstrom apix (thresholdValue bin D) =
          (D / bin) * apix) ∧
      resolutionAngstrom 1 (thresholdValue 16 64) = 4 := by
  intro bin D apix hbin hD
  refine ⟨⟨?_, ?_⟩, ?_⟩
  · unfold resolutionAngstrom thresholdValue
    rw [one_div, inv_mul_eq_div]
  · unfold resolutionAngstrom thresholdValue
    rw [one_div_div]
  · unfold resolutionAngstrom thresholdValue
    norm_num

/-- Witness for C9 at `bin = 16`, `D = 64`, `Apix = 1`. -/
theorem resolution_conversion_witness :
    (16 : ℚ) ≠ 0 ∧ (64 : ℚ) ≠ 0 ∧
      resolutionAngstrom 1 (thresholdValue 16 64) = (64 / 16 : ℚ) * 1 :=
  ⟨by norm_num, by norm_num,
    ((resolution_conversion 16 64 1 (by norm_num) (by norm_num)).1).2⟩

/-! ## Coinciding corners -/

theorem cornersOf_def (c : Coord) : cornersOf c =
    [(⌊c.1⌋, ⌊c.2.1⌋, ⌊c.2.2⌋), (⌈c.1⌉, ⌊c.2.1⌋, ⌊c.2.2⌋),
      (⌊c.1⌋, ⌈c.2.1⌉, ⌊c.2.2⌋), (⌊c.1⌋, ⌊c.2.1⌋, ⌈c.2.2⌉),
      (⌈c.1⌉, ⌈c.2.1⌉, ⌊c.2.2⌋), (⌊c.1⌋, ⌈c.2.1⌉, ⌈c.2.2⌉),
      (⌈c.1⌉, ⌊c.2.1⌋, ⌈c.2.2⌉), (⌈c.1⌉, ⌈c.2.1⌉, ⌈c.2.2⌉)] := rfl

theorem corners_count_aux (a a' b b' e e' : ℤ) :
    (([(a, b, e), (a', b, e), (a, b', e), (a, b, e'),
        (a', b', e), (a, b', e'), (a', b, e'), (a', b', e')] :
        List Corner).dedup.length =
      2 ^ (3 - ((if a = a' then 1 else 0) + (if b = b' then 1 else 0) +
        (if e = e' then 1 else 0)))) ∧
    ∀ u ∈ ([(a, b, e), (a', b, e), (a, b', e), (a, b, e'),
        (a', b', e), (a, b', e'), (a', b, e'), (a', b', e')] :
        List Corner),
      List.count u
          ([(a, b, e), (a', b, e), (a, b', e), (a, b, e'),
            (a', b', e), (a, b', e'), (a', b, e'), (a', b', e')] :
            List Corner) =
        2 ^ ((if a = a' then 1 else 0) + (if b = b' then 1 else 0) +
          (if e = e' then 1 else 0)) := by
  by_cases hx : a = a'
  · subst hx
    by_cases hy : b = b'
    · subst hy
      by_cases hz : e = e'
      · subst hz
        refine ⟨by simp, ?_⟩
        intro u hu
        fin_cases hu <;> simp [List.count_cons]
      · refine ⟨by simp [hz, Ne.symm hz], ?_⟩
        intro u hu
        fin_cases hu <;> simp [List.count_cons, hz, Ne.symm hz]
    · by_cases hz : e = e'
      · subst hz
        refine ⟨by simp [hy, Ne.symm hy], ?_⟩
        intro u hu
        fin_cases hu <;> simp [List.count_cons, hy, Ne.symm hy]
      · refine ⟨by simp [hy, hz, Ne.symm hy, Ne.symm hz], ?_⟩
        intro u hu
        fin_cases hu <;> simp [List.count_cons, hy, hz, Ne.symm hy, Ne.symm hz]
  · by_cases hy : b = b'
    · subst hy
      by_cases hz : e = e'
      · subst hz
        refine ⟨by simp [hx, Ne.symm hx], ?_⟩
        intro u hu
        fin_cases hu <;> simp [List.count_cons, hx, Ne.symm hx]
      · refine ⟨by simp [hx, hz, Ne.symm hx, Ne.symm hz], ?_⟩
        intro u hu
        fin_cases hu <;> simp [List.count_cons, hx, hz, Ne.symm hx, Ne.symm hz]
    · by_cases hz : e = e'
      · subst hz
        refine ⟨by simp [hx, hy, Ne.symm hx, Ne.symm hy], ?_⟩
        intro u hu
        fin_cases hu <;> simp [List.count_cons, hx, hy, Ne.symm hx, Ne.symm hy]
      · refine ⟨by simp [hx, hy, hz, Ne.symm hx, Ne.symm hy, Ne.symm hz], ?_⟩
        intro u hu
        fin_cases hu <;>
          simp [List.count_cons, hx, hy, hz, Ne.symm hx, Ne.symm hy, Ne.symm hz]

/-- C10: when a clipped coordinate is integral along `k` axes (as always
happens for components folded to the clip boundary), floor and ceil coincide
there, so the eight corner updates of `add_slice` address only `2^(3-k)`
distinct corners and each corner in the list occurs `2^k` times; a sample
landing exactly on an integer lattice point contributes eight times the
single-corner amount to both grids. -/
theorem coinciding_corner_multiplicity :
    (∀ c : Coord,
      (cornersOf c).dedup.length = 2 ^ (3 - numCoincident c) ∧
        ∀ u ∈ cornersOf c, (cornersOf c).count u = 2 ^ numCoincident c) ∧
    (∀ d2 : ℤ, 0 ≤ d2 → ∀ q : ℚ,
      ((d2 : ℚ) ≤ q → ⌊ratClip d2 q⌋ = ⌈ratClip d2 q⌉) ∧
        (q ≤ -(d2 : ℚ) → ⌊ratClip d2 q⌋ = ⌈ratClip d2 q⌉)) ∧
    (∀ (D : ℕ) (smp : Sample) (P : GridPair) (m : Corner),
      clipCoord ((D / 2 : ℕ) : ℤ) smp.coord =
          ((m.1 : ℚ), (m.2.1 : ℚ), (m.2.2 : ℚ)) →
        (add_slice_sample D smp P).1 (cornerIdx ((D / 2 : ℕ) : ℤ) m) =
            P.1 (cornerIdx ((D / 2 : ℕ) : ℤ) m) +
              8 * ((smp.ff : ℝ) * (smp.ctfMul : ℝ)) ∧
          (add_slice_sample D smp P).2 (cornerIdx ((D / 2 : ℕ) : ℤ) m) =
            P.2 (cornerIdx ((D / 2 : ℕ) : ℤ) m) + 8 * (smp.ctfMul : ℝ) ^ 2) := by
  refine ⟨?_, ?_, ?_⟩
  · intro c
    rw [cornersOf_def]
    unfold numCoincident
    exact corners_count_aux ⌊c.1⌋ ⌈c.1⌉ ⌊c.2.1⌋ ⌈c.2.1⌉ ⌊c.2.2⌋ ⌈c.2.2⌉
  · intro d2 hd2 q
    have hdd : -(d2 : ℚ) ≤ (d2 : ℚ) := by
      have : (0 : ℚ) ≤ (d2 : ℚ) := by exact_mod_cast hd2
      linarith
    constructor
    · intro h
      have h1 : ratClip d2 q = (d2 : ℚ) := by
        unfold ratClip
        rw [min_eq_left h, max_eq_right hdd]
      rw [h1, Int.floor_intCast, Int.ceil_intCast]
    · intro h
      have h1 : ratClip d2 q = -(d2 : ℚ) := by
        unfold ratClip
        rw [min_eq_right (le_trans h hdd), max_eq_left h]
      rw [h1, show -(d2 : ℚ) = ((-d2 : ℤ) : ℚ) by push_cast; ring,
        Int.floor_intCast, Int.ceil_intCast]
  · intro D smp P m hm
    have hw : splatWeight m ((m.1 : ℚ), (m.2.1 : ℚ), (m.2.2 : ℚ)) = 1 :=
      (splatWeight_eq_one_iff m _).mpr rfl
    have hcor : cornersOf ((m.1 : ℚ), (m.2.1 : ℚ), (m.2.2 : ℚ)) =
        [m, m, m, m, m, m, m, m] := by
      rw [cornersOf_def]
      simp
    have hfst : (sampleDelta D smp).1 (cornerIdx ((D / 2 : ℕ) : ℤ) m) =
        8 * ((smp.ff : ℝ) * (smp.ctfMul : ℝ)) := by
      unfold sampleDelta
      dsimp only
      rw [hm, hcor, pairSum_fst]
      simp [cornerDelta, hw]
      ring
    have hsnd : (sampleDelta D smp).2 (cornerIdx ((D / 2 : ℕ) : ℤ) m) =
        8 * (smp.ctfMul : ℝ) ^ 2 := by
      unfold sampleDelta
      dsimp only
      rw [hm, hcor, pairSum_snd]
      simp [cornerDelta, hw]
      ring
    constructor
    · rw [add_slice_sample_eq, Prod.fst_add, Pi.add_apply, hfst]
    · rw [add_slice_sample_eq, Prod.snd_add, Pi.add_apply, hsnd]

/-- Witness for C10: corner counts at `(1/2, 0, 0)`, boundary folding at
`d2 = 1`, `q = 5`, and the eightfold lattice-point contribution at the
origin sample of a `D = 2` grid. -/
theorem coinciding_corner_multiplicity_witness :
    (((0, 0, 0) : Corner) ∈ cornersOf ((1 / 2, 0, 0) : Coord) ∧
      (cornersOf ((1 / 2, 0, 0) : Coord)).count ((0, 0, 0) : Corner) =
        2 ^ numCoincident ((1 / 2, 0, 0) : Coord)) ∧
    ((0 : ℤ) ≤ 1 ∧ (1 : ℚ) ≤ 5 ∧ ⌊ratClip 1 (5 : ℚ)⌋ = ⌈ratClip 1 (5 : ℚ)⌉) ∧
    (clipCoord ((2 / 2 : ℕ) : ℤ) ((0, 0, 0) : Coord) =
        ((((0, 0, 0) : Corner).1 : ℚ), (((0, 0, 0) : Corner).2.1 : ℚ),
          (((0, 0, 0) : Corner).2.2 : ℚ)) ∧
      (add_slice_sample 2 ⟨(0, 0, 0), 1, 1⟩ zeroPair).1
          (cornerIdx ((2 / 2 : ℕ) : ℤ) ((0, 0, 0) : Corner)) =
        zeroPair.1 (cornerIdx ((2 / 2 : ℕ) : ℤ) ((0, 0, 0) : Corner)) +
          8 * (((1 : ℚ) : ℝ) * ((1 : ℚ) : ℝ))) :=
  ⟨⟨by norm_num [cornersOf, List.mem_cons],
      (coinciding_corner_multiplicity.1 ((1 / 2, 0, 0) : Coord)).2
        ((0, 0, 0) : Corner) (by norm_num [cornersOf, List.mem_cons])⟩,
    ⟨by decide, by norm_num,
      (coinciding_corner_multiplicity.2.1 1 (by decide) 5).1 (by norm_num)⟩,
    ⟨by norm_num [clipCoord, ratClip],
      (coinciding_corner_multiplicity.2.2 2 ⟨(0, 0, 0), 1, 1⟩ zeroPair
        ((0, 0, 0) : Corner) (by norm_num [clipCoord, ratClip])).1⟩⟩

end Backproject
